import Mathlib

/-!
Verification development for the table widget core of the repository
(src/widgets/cpu_graph.rs, src/tuine/component/text_table.rs,
src/tuine/component/widget/temp_table.rs).

Machine integers of the source (u16, usize) are modelled as Nat with an
explicit `% 65536` at the places where a u16 overflow or cast truncation
can actually occur; f64 usage values are modelled as Int, which is faithful
for every comparison the source performs except the NaN case that
`partial_cmp(..).unwrap_or(Equal)` maps to Equal (no claim exercises NaN).
-/

/-! ## Data model of src/widgets/cpu_graph.rs -/

/-- Mirrors `CpuDataType` (data_collection::cpu): an average entry or a
single core with its index (usize, modelled as Nat). -/
inductive CpuDataType where
  | Avg : CpuDataType
  | Cpu : Nat → CpuDataType
deriving DecidableEq, Repr

/-- Mirrors `CpuWidgetTableData` of cpu_graph.rs: the synthetic All row, or
an entry row carrying its data type and the latest usage value
(`last_entry: f64`, modelled as Int). -/
inductive CpuWidgetTableData where
  | All : CpuWidgetTableData
  | Entry : CpuDataType → Int → CpuWidgetTableData
deriving DecidableEq, Repr

/-- Mirrors `CpuWidgetColumn` of cpu_graph.rs. -/
inductive CpuWidgetColumn where
  | CPU : CpuWidgetColumn
  | Use : CpuWidgetColumn
deriving DecidableEq, Repr

/-- Mirrors `std::cmp::Ordering::cmp` on usize (`a_cpu.cmp(b_cpu)`). -/
def natCmp (a b : Nat) : Ordering :=
  if a < b then .lt else if a = b then .eq else .gt

/-- Mirrors the comparison the source performs on `last_entry` values:
`a_last_entry.partial_cmp(b_last_entry).unwrap_or(Equal)`. On the Int
model the partial comparison is always defined. -/
def intCmp (a b : Int) : Ordering :=
  if a < b then .lt else if a = b then .eq else .gt

/-- Mirrors the order flip in `sort_data`:
Less becomes Greater, Greater becomes Less, anything else is kept. -/
def flipOrder (o : Ordering) : Ordering :=
  match o with
  | .lt => .gt
  | .gt => .lt
  | o => o

/-- Comparator body of the `CpuWidgetColumn::CPU` arm of
`SortsRow::sort_data` before the descending flip: the All row compares
Greater against anything, an Avg entry compares Greater against core
entries, and core entries compare by their index. -/
def cmpCPUBase (a b : CpuWidgetTableData) : Ordering :=
  match a, b with
  | .All, _ => .gt
  | _, .All => .lt
  | .Entry ad _, .Entry bd _ =>
    match ad, bd with
    | .Avg, _ => .gt
    | _, .Avg => .lt
    | .Cpu ac, .Cpu bc => natCmp ac bc

/-- Comparator body of the `CpuWidgetColumn::Use` arm of
`SortsRow::sort_data` before the descending flip. -/
def cmpUseBase (a b : CpuWidgetTableData) : Ordering :=
  match a, b with
  | .All, _ => .gt
  | _, .All => .lt
  | .Entry ad av, .Entry bd bv =>
    match ad, bd with
    | .Avg, _ => .gt
    | _, .Avg => .lt
    | .Cpu _, .Cpu _ => intCmp av bv

/-- Full comparator of `SortsRow::sort_data` for a column: the base order
is computed first and then, when `descending` is false, flipped. The flip
in the source is applied to every pair, the aggregate arms included. -/
def sortCmp (c : CpuWidgetColumn) (descending : Bool) (a b : CpuWidgetTableData) : Ordering :=
  let order := match c with
    | .CPU => cmpCPUBase a b
    | .Use => cmpUseBase a b
  if !descending then flipOrder order else order

/-! ## Stable sort model for `slice::sort_by`

The Rust standard library guarantees `sort_by` is a stable sort that
reorders the slice according to the comparator; for any comparator that is
a total preorder on the elements involved the stable-sorted permutation is
unique, so a stable insertion sort is an exact model of it. -/

/-- Insert `a` into `l` in front of the first element `b` with `le a b`.
Because ties satisfy `le a b`, the inserted element lands before the tied
elements that were originally behind it, which is the stable behaviour. -/
def orderedInsertBy (le : CpuWidgetTableData → CpuWidgetTableData → Bool)
    (a : CpuWidgetTableData) : List CpuWidgetTableData → List CpuWidgetTableData
  | [] => [a]
  | b :: l => if le a b then a :: b :: l else b :: orderedInsertBy le a l

/-- Stable insertion sort with a Bool ordering test, the model of
`slice::sort_by` with `le a b` standing for `cmp(a, b) != Greater`. -/
def sortByStable (le : CpuWidgetTableData → CpuWidgetTableData → Bool) :
    List CpuWidgetTableData → List CpuWidgetTableData
  | [] => []
  | a :: l => orderedInsertBy le a (sortByStable le l)

/-- Mirrors `SortsRow::sort_data` of cpu_graph.rs: sort the data with the
column comparator, flipped when `descending` is false. -/
def sort_data (c : CpuWidgetColumn) (data : List CpuWidgetTableData)
    (descending : Bool) : List CpuWidgetTableData :=
  sortByStable (fun a b => sortCmp c descending a b != .gt) data

/-- Claim C1 (code bug evidence): the scenario of the claim, one pinned
All row and three entries with values 10, 30 and 20, sorted by the Use
column under both settings of the descending flag. Because the source
applies the order flip to the aggregate arms of the comparator as well,
the All row lands at the front for one setting and at the back for the
other, so there is no way to read the two settings as Ascending and
Descending under which the All row keeps one anchored end, and neither
reading produces the claimed orders [10, 20, 30, All] and
[30, 20, 10, All]. -/
theorem c1_aggregate_row_changes_ends :
    sort_data .Use
      [.Entry (.Cpu 0) 10, .Entry (.Cpu 1) 30, .Entry (.Cpu 2) 20, .All] false
      = [.All, .Entry (.Cpu 1) 30, .Entry (.Cpu 2) 20, .Entry (.Cpu 0) 10] ∧
    sort_data .Use
      [.Entry (.Cpu 0) 10, .Entry (.Cpu 1) 30, .Entry (.Cpu 2) 20, .All] true
      = [.Entry (.Cpu 0) 10, .Entry (.Cpu 2) 20, .Entry (.Cpu 1) 30, .All] := by
  decide

/-! ## Cell conversion and row styling of cpu_graph.rs -/

/-- Stand-in for the formatted use percentage string
`format!("{:.0}%", last_entry.round())`; no claim inspects its contents. -/
def fmtUse (v : Int) : String :=
  toString v ++ "%"

/-- Mirrors `DataToCell::to_cell` of cpu_graph.rs. The source receives the
width as `NonZeroU16` and immediately extracts the raw value; the model
takes the raw Nat, so the NonZero type invariant becomes the hypothesis
`w ≠ 0` of the theorems below. `CPU_TRUNCATE_BREAKPOINT` is 5. -/
def to_cell (d : CpuWidgetTableData) (column : CpuWidgetColumn)
    (calculated_width : Nat) : Option String :=
  match d with
  | .All =>
    match column with
    | .CPU => some "All"
    | .Use => none
  | .Entry data_type last_entry =>
    if calculated_width = 0 then
      none
    else
      match column with
      | .CPU =>
        match data_type with
        | .Avg => some "AVG"
        | .Cpu index =>
          some (if calculated_width < 5 then toString index
                else "CPU" ++ toString index)
      | .Use => some (fmtUse last_entry)

/-- Mirrors the style selection of `DataToCell::style_row` of cpu_graph.rs.
Styles are opaque to the claims, so they are modelled as values of an
arbitrary type. The source indexes
`painter.colours.cpu_colour_styles[index % cpu_colour_styles.len()]`
directly, with no emptiness guard: an empty style list makes the modulo
operand zero, which panics in Rust, modelled here as `none`. -/
def style_row {σ : Type} (allStyle avgStyle : σ) (cpuStyles : List σ)
    (d : CpuWidgetTableData) : Option σ :=
  match d with
  | .All => some allStyle
  | .Entry data_type _ =>
    match data_type with
    | .Avg => some avgStyle
    | .Cpu index =>
      if cpuStyles.length = 0 then none
      else cpuStyles.get? (index % cpuStyles.length)

/-! ## Column width allocation of text_table.rs -/

/-- Mirrors `TextColumnConstraint` of table_column. -/
inductive TextColumnConstraint where
  | Fill : TextColumnConstraint
  | Length : Nat → TextColumnConstraint
  | Percentage : Nat → TextColumnConstraint
  | MaxLength : Nat → TextColumnConstraint
  | MaxPercentage : Nat → TextColumnConstraint
deriving DecidableEq, Repr

/-- Mirrors `TextColumn`: the name itself only enters the allocator through
its grapheme cluster count, so the column is modelled by that count
(`nameWidth = column.name.graphemes(true).count()`) and the constraint. -/
structure TextColumn where
  nameWidth : Nat
  width_constraint : TextColumnConstraint
deriving DecidableEq, Repr

/-- Desired width of a column in `update_column_widths`:
`column.name.graphemes(true).count().saturating_add(1) as u16`. The
saturating usize add never saturates on Nat; the cast to u16 truncates. -/
def desiredWidth (c : TextColumn) : Nat :=
  (c.nameWidth + 1) % 65536

/-- Width taken by one column of the first pass of `update_column_widths`,
given the total width and the width still remaining. The u16 product
`total_width * percentage` wraps modulo 65536 (release build semantics);
the debug build, which panics instead, is modelled separately below. -/
def colWidth (total : Nat) (c : TextColumn) (rem : Nat) : Nat :=
  match c.width_constraint with
  | .Fill => min (desiredWidth c) rem
  | .Length length => min length rem
  | .Percentage percentage => min (total * percentage % 65536 / 100) rem
  | .MaxLength length => min (min length (desiredWidth c)) rem
  | .MaxPercentage percentage =>
    min (min (desiredWidth c) (total * percentage % 65536 / 100)) rem

/-- First pass of `update_column_widths`: map each column in order to its
width against the remaining width, threading
`width_remaining -= width` through; returns the widths and the final
remaining width. The subtraction never underflows because each width is
capped by the remaining width. -/
def firstPass (total : Nat) : List TextColumn → Nat → List Nat × Nat
  | [], rem => ([], rem)
  | c :: cs, rem =>
    let w := colWidth total c rem
    let rest := firstPass total cs (rem - w)
    (w :: rest.1, rest.2)

/-- Redistribution loop of `update_column_widths`: starting at index `i`,
add `per` to every width and one extra unit when
`(index as u16) < width_remaining`, that is when `i % 65536 < extra`.
The additions stay below 65536 (each final width is bounded by the total
u16 width), so no wrap is modelled on them. -/
def redistribute (per extra : Nat) : Nat → List Nat → List Nat
  | _, [] => []
  | i, w :: ws =>
    (if i % 65536 < extra then w + per + 1 else w + per)
      :: redistribute per extra (i + 1) ws

/-- Mirrors `update_column_widths` of text_table.rs. After the first pass,
a non-empty width list is adjusted by
`amount_per_slot = width_remaining / (column_widths.len() as u16)` and
`width_remaining %= column_widths.len() as u16`: the usize length is cast
to u16, so a length that is a positive multiple of 65536 makes the divisor
zero and the division panics, modelled as `none`. -/
def update_column_widths (columns : List TextColumn) (width : Nat) :
    Option (List Nat) :=
  let pass := firstPass width columns width
  let column_widths := pass.1
  let width_remaining := pass.2
  if column_widths.isEmpty then
    some column_widths
  else
    let n := column_widths.length % 65536
    if n = 0 then
      none
    else
      some (redistribute (width_remaining / n) (width_remaining % n) 0 column_widths)

/-- Debug-build width of one column: identical to `colWidth` except that a
u16 overflow of `total_width * percentage` is a panic instead of a wrap,
modelled as `none`. -/
def colWidthChecked (total : Nat) (c : TextColumn) (rem : Nat) : Option Nat :=
  match c.width_constraint with
  | .Percentage percentage =>
    if 65536 ≤ total * percentage then none
    else some (min (total * percentage / 100) rem)
  | .MaxPercentage percentage =>
    if 65536 ≤ total * percentage then none
    else some (min (min (desiredWidth c) (total * percentage / 100)) rem)
  | _ => some (colWidth total c rem)

/-- Debug-build first pass, threading the possible overflow panic. -/
def firstPassChecked (total : Nat) : List TextColumn → Nat → Option (List Nat × Nat)
  | [], rem => some ([], rem)
  | c :: cs, rem => do
    let w ← colWidthChecked total c rem
    let (ws, rem2) ← firstPassChecked total cs (rem - w)
    pure (w :: ws, rem2)

/-- Debug-build `update_column_widths`: panics on a u16 overflow of a
percentage product and on the zero divisor produced by the u16 cast of the
column count. -/
def update_column_widths_checked (columns : List TextColumn) (width : Nat) :
    Option (List Nat) := do
  let (column_widths, width_remaining) ← firstPassChecked width columns width
  if column_widths.isEmpty then
    pure column_widths
  else
    let n := column_widths.length % 65536
    if n = 0 then none
    else pure (redistribute (width_remaining / n) (width_remaining % n) 0 column_widths)

/-! ## Scroll state

The file src/tuine/component/text_table/table_scroll_state.rs is not among
the sources; only its callers in text_table.rs are. The state and its
operations are therefore modelled from the spec (sections 3, 4.2, 7). -/

/-- Modelled from the spec: `ScrollState` of table_scroll_state.rs (not
among the sources) is the record
start_offset, optional selected_index, total_items, with the invariant
that a set selected_index lies in `[0, total_items)`. -/
structure ScrollState where
  start_offset : Nat
  selected_index : Option Nat
  total_items : Nat
deriving DecidableEq, Repr

/-- Modelled from the spec: a fresh table has offset 0 and no selection. -/
def ScrollState.init (n : Nat) : ScrollState :=
  { start_offset := 0, selected_index := none, total_items := n }

/-- Modelled from the spec: `move_down(n)` clamps the selection into
`[0, total_items)`; with no previous selection it selects index 0; with no
items it cannot select anything. -/
def ScrollState.move_down (s : ScrollState) (n : Nat) : ScrollState :=
  if s.total_items = 0 then s
  else
    match s.selected_index with
    | none => { s with selected_index := some 0 }
    | some i => { s with selected_index := some (min (i + n) (s.total_items - 1)) }

/-- Modelled from the spec: `move_up(n)` clamps the selection into
`[0, total_items)`; with no previous selection it selects the last index;
with no items it cannot select anything. -/
def ScrollState.move_up (s : ScrollState) (n : Nat) : ScrollState :=
  if s.total_items = 0 then s
  else
    match s.selected_index with
    | none => { s with selected_index := some (s.total_items - 1) }
    | some i => { s with selected_index := some (i - n) }

/-- Modelled from the spec: `set_selected_by_visual_offset` converts a
viewport-relative row offset into an absolute index by adding
start_offset, and rejects as a no-op an offset at or beyond the number of
currently visible rows, read as the rows from start_offset to the end of
the data, so that the accepted absolute index is always in range. -/
def ScrollState.set_visual_index (s : ScrollState) (v : Nat) : ScrollState :=
  if s.start_offset + v < s.total_items then
    { s with selected_index := some (s.start_offset + v) }
  else s

/-- Modelled from the spec: `visible_window(h)` pulls start_offset down to
the selection when the selection is above it, pushes it up so the
selection is the last visible row when the selection is at or beyond
`start_offset + h`, forces it to 0 when everything fits, and returns the
updated state together with
`(start_offset, min(total_items, start_offset + h))`. -/
def ScrollState.visible_window (s : ScrollState) (h : Nat) :
    ScrollState × Nat × Nat :=
  let st0 := s.start_offset
  let st1 :=
    match s.selected_index with
    | some i => if i < st0 then i else if st0 + h ≤ i then i + 1 - h else st0
    | none => st0
  let st2 := if s.total_items ≤ h then 0 else st1
  ({ s with start_offset := st2 }, st2, min s.total_items (st2 + h))

/-- Scroll operations of claim C5, applied through `applyOp`. -/
inductive ScrollOp where
  | up : Nat → ScrollOp
  | down : Nat → ScrollOp
  | setVisual : Nat → ScrollOp
deriving DecidableEq, Repr

/-- Apply one scroll operation to the state. -/
def applyOp (s : ScrollState) (op : ScrollOp) : ScrollState :=
  match op with
  | .up n => s.move_up n
  | .down n => s.move_down n
  | .setVisual v => s.set_visual_index v

/-- Apply a sequence of scroll operations from the left. -/
def applyOps (s : ScrollState) : List ScrollOp → ScrollState
  | [] => s
  | op :: ops => applyOps (applyOp s op) ops

/-! ## Event handling of text_table.rs -/

/-- Mirrors `tuine::Status`. -/
inductive Status where
  | Captured : Status
  | Ignored : Status
deriving DecidableEq, Repr

/-- Mouse event kinds reaching `on_event`: the left button press, the two
scroll wheel directions, and the wildcard arm of the source match. -/
inductive MouseEventKind where
  | DownLeft : MouseEventKind
  | ScrollDown : MouseEventKind
  | ScrollUp : MouseEventKind
  | Other : MouseEventKind
deriving DecidableEq, Repr

/-- Mirrors the mouse event payload used by `on_event`: kind, row and
column in absolute terminal cells (u16, modelled as Nat). -/
structure MouseEvent where
  kind : MouseEventKind
  row : Nat
  column : Nat
deriving DecidableEq, Repr

/-- Mirrors `tuine::Event`: a keyboard event (payload irrelevant to
`on_event`, which ignores it) or a mouse event. -/
inductive Event where
  | Keyboard : Event
  | Mouse : MouseEvent → Event
deriving DecidableEq, Repr

/-- Mirrors `tui::layout::Rect` (x, y, width, height in u16 cells). -/
structure Rect where
  x : Nat
  y : Nat
  width : Nat
  height : Nat
deriving DecidableEq, Repr

/-- Modelled from the spec: `does_mouse_intersect_bounds` of the tuine
module is not among the sources; per the spec, mouse events outside the
bounds are ignored, so the test is containment of the event cell in the
bounds rectangle. -/
def mouseIntersects (m : MouseEvent) (bounds : Rect) : Bool :=
  decide (bounds.x ≤ m.column) && decide (m.column < bounds.x + bounds.width) &&
  decide (bounds.y ≤ m.row) && decide (m.row < bounds.y + bounds.height)

/-- State of `TextTable` needed by `on_event`: its scroll state, the table
gap computed by the last draw, and the sortable flag. -/
structure TextTable where
  state : ScrollState
  table_gap : Nat
  sortable : Bool
deriving DecidableEq, Repr

/-- Status of a scroll-state mutation per the spec: Captured when the
operation changed the state, Ignored otherwise. -/
def mutationStatus (old new : ScrollState) : Status :=
  if new = old then .Ignored else .Captured

/-- Mirrors `Component::on_event` of text_table.rs. Keyboard events are
ignored; mouse events outside the bounds are ignored; a left press on a
sortable header row is captured; a left press with
`y = row - bounds.top()` strictly below `table_gap` is ignored; otherwise
the press is translated to `visual_index = y - table_gap` and delegated to
the scroll state; wheel events delegate to the moves. -/
def on_event (t : TextTable) (bounds : Rect) (event : Event) :
    TextTable × Status :=
  match event with
  | .Keyboard => (t, .Ignored)
  | .Mouse mouse_event =>
    if mouseIntersects mouse_event bounds then
      match mouse_event.kind with
      | .DownLeft =>
        let y := mouse_event.row - bounds.y
        if t.sortable ∧ y = 0 then
          (t, .Captured)
        else if t.table_gap < y then
          let visual_index := y - t.table_gap
          let s2 := t.state.set_visual_index visual_index
          ({ t with state := s2 }, mutationStatus t.state s2)
        else
          (t, .Ignored)
      | .ScrollDown =>
        let s2 := t.state.move_down 1
        ({ t with state := s2 }, mutationStatus t.state s2)
      | .ScrollUp =>
        let s2 := t.state.move_up 1
        ({ t with state := s2 }, mutationStatus t.state s2)
      | .Other => (t, .Ignored)
    else
      (t, .Ignored)

/-! ## Table update of cpu_graph.rs -/

/-- Mirrors `SortOrder` of the data_table component. -/
inductive SortOrder where
  | Ascending : SortOrder
  | Descending : SortOrder
deriving DecidableEq, Repr

/-- Mirrors `CpuWidgetData` (data_conversion): the All marker or an entry
with its data type, collected history (unused by the table conversion) and
latest value. -/
inductive CpuWidgetData where
  | All : CpuWidgetData
  | Entry : CpuDataType → List Int → Int → CpuWidgetData
deriving DecidableEq, Repr

/-- Mirrors `CpuWidgetTableData::from_cpu_widget_data`: drop the history
and keep the data type and latest value. -/
def from_cpu_widget_data (d : CpuWidgetData) : CpuWidgetTableData :=
  match d with
  | .All => .All
  | .Entry data_type _ last_entry => .Entry data_type last_entry

/-- Column list fixed by `CpuWidgetState::new`: the CPU column then the
Use column. -/
def cpuColumns : List CpuWidgetColumn :=
  [.CPU, .Use]

/-- State of the sortable CPU table relevant to `update_table`: the cached
sort column index, the cached order, and the stored rows. -/
structure CpuTable where
  sort_index : Nat
  order : SortOrder
  data : List CpuWidgetTableData
deriving DecidableEq, Repr

/-- Modelled from the spec: `SortColumn::sort_by` of the data_table
component is not among the sources; per the spec it applies the sorting
capability of the column in the given order, so it calls `sort_data` with
the descending flag set exactly for `Descending`. -/
def sortColumnSortBy (c : CpuWidgetColumn) (data : List CpuWidgetTableData)
    (order : SortOrder) : List CpuWidgetTableData :=
  sort_data c data (order = SortOrder.Descending)

/-- Mirrors `CpuWidgetState::update_table`: convert every incoming row with
`from_cpu_widget_data`, then, when the cached sort index denotes a column,
re-apply that column in the cached order before storing the rows. -/
def update_table (t : CpuTable) (data : List CpuWidgetData) : CpuTable :=
  let table_data := data.map from_cpu_widget_data
  let table_data :=
    match cpuColumns.get? t.sort_index with
    | some column => sortColumnSortBy column table_data t.order
    | none => table_data
  { t with data := table_data }

/-! ## Lemmas about the width allocator -/

theorem colWidth_le (total : Nat) (c : TextColumn) (rem : Nat) :
    colWidth total c rem ≤ rem := by
  cases h : c.width_constraint <;> simp [colWidth, h]

theorem firstPass_spec (total : Nat) :
    ∀ (cols : List TextColumn) (rem : Nat),
      (firstPass total cols rem).1.sum + (firstPass total cols rem).2 = rem ∧
      (firstPass total cols rem).1.length = cols.length
  | [], rem => by simp [firstPass]
  | c :: cs, rem => by
    have hle := colWidth_le total c rem
    have ih := firstPass_spec total cs (rem - colWidth total c rem)
    simp only [firstPass, List.sum_cons, List.length_cons]
    omega

theorem redistribute_length (per extra : Nat) :
    ∀ (i : Nat) (ws : List Nat), (redistribute per extra i ws).length = ws.length
  | _, [] => rfl
  | i, w :: ws => by
    simp [redistribute, redistribute_length per extra (i + 1) ws]

theorem redistribute_sum (per extra : Nat) :
    ∀ (i : Nat) (ws : List Nat), i + ws.length ≤ 65536 →
      (redistribute per extra i ws).sum
        = ws.sum + per * ws.length + (min extra (i + ws.length) - min extra i)
  | i, [], _ => by simp [redistribute]
  | i, w :: ws, h => by
    have hlen : i < 65536 := by
      have := List.length_cons w ws ▸ h
      omega
    have hi : i % 65536 = i := Nat.mod_eq_of_lt hlen
    have ih := redistribute_sum per extra (i + 1) ws (by
      have := List.length_cons w ws ▸ h
      omega)
    simp only [redistribute, List.sum_cons, List.length_cons, hi, ih]
    rw [Nat.mul_succ]
    split <;> omega

theorem redistribute_get (per extra : Nat) :
    ∀ (i j : Nat) (ws : List Nat),
      (redistribute per extra i ws).get? j
        = (ws.get? j).map
            (fun w => w + per + if (i + j) % 65536 < extra then 1 else 0)
  | _, _, [] => by simp [redistribute]
  | i, 0, w :: ws => by
    simp only [redistribute, List.get?, Nat.add_zero, Option.map_some']
    split <;> simp
  | i, j + 1, w :: ws => by
    have ih := redistribute_get per extra (i + 1) j ws
    have harith : i + 1 + j = i + (j + 1) := by omega
    simpa only [redistribute, List.get?, harith] using ih

theorem update_column_widths_eq (cols : List TextColumn) (w : Nat)
    (hne : cols ≠ []) (hlen : cols.length < 65536) :
    update_column_widths cols w
      = some (redistribute ((firstPass w cols w).2 / cols.length)
              ((firstPass w cols w).2 % cols.length) 0 (firstPass w cols w).1) := by
  have hlenp : (firstPass w cols w).1.length = cols.length := (firstPass_spec w cols w).2
  have hlen0 : cols.length ≠ 0 := fun h => hne (List.length_eq_zero.mp h)
  have hempty : (firstPass w cols w).1.isEmpty = false := by
    cases hc : (firstPass w cols w).1 with
    | nil => rw [hc] at hlenp; simp at hlenp; exact absurd hlenp.symm hlen0
    | cons a l => simp
  have hmod : (firstPass w cols w).1.length % 65536 = cols.length := by
    rw [hlenp]; exact Nat.mod_eq_of_lt hlen
  unfold update_column_widths
  simp only [hempty, Bool.false_eq_true, if_false, hmod, hlen0, if_neg hlen0]

theorem update_column_widths_none (cols : List TextColumn) (w : Nat)
    (hne : cols ≠ []) (hmod : cols.length % 65536 = 0) :
    update_column_widths cols w = none := by
  have hlenp : (firstPass w cols w).1.length = cols.length := (firstPass_spec w cols w).2
  have hlen0 : cols.length ≠ 0 := fun h => hne (List.length_eq_zero.mp h)
  have hempty : (firstPass w cols w).1.isEmpty = false := by
    cases hc : (firstPass w cols w).1 with
    | nil => rw [hc] at hlenp; simp at hlenp; exact absurd hlenp.symm hlen0
    | cons a l => simp
  have hmod2 : (firstPass w cols w).1.length % 65536 = 0 := by rw [hlenp]; exact hmod
  unfold update_column_widths
  simp [hempty, hmod2]

theorem firstPass_replicate_len0 (total : Nat) :
    ∀ (n : Nat) (rem : Nat),
      firstPass total (List.replicate n ⟨0, .Length 0⟩) rem
        = (List.replicate n 0, rem)
  | 0, rem => rfl
  | n + 1, rem => by
    simp [List.replicate_succ, firstPass, colWidth,
      firstPass_replicate_len0 total n rem]

theorem redistribute_replicate_extra0 (per : Nat) :
    ∀ (n : Nat) (i : Nat) (w : Nat),
      redistribute per 0 i (List.replicate n w) = List.replicate n (w + per)
  | 0, _, _ => rfl
  | n + 1, i, w => by
    simp [List.replicate_succ, redistribute,
      redistribute_replicate_extra0 per n (i + 1) w]

/-- Claim C2, corrected: with a non-empty column list of fewer than 65536
columns the allocator returns exactly one width per column and the widths
sum to the available width unconditionally, which subsumes both branches
of the claim (equality when the available width covers every minimum
desired width, and at most the available width otherwise). The bound on
the column count is forced by the counterexample below. -/
theorem c2_width_sum_invariant (cols : List TextColumn) (w : Nat)
    (hne : cols ≠ []) (hlen : cols.length < 65536) :
    ∃ ws, update_column_widths cols w = some ws ∧
      ws.sum = w ∧ ws.length = cols.length := by
  have hspec := firstPass_spec w cols w
  have hlen0 : cols.length ≠ 0 := fun h => hne (List.length_eq_zero.mp h)
  have hlpos : 0 < cols.length := Nat.pos_of_ne_zero hlen0
  refine ⟨_, update_column_widths_eq cols w hne hlen, ?_, ?_⟩
  · rw [redistribute_sum _ _ 0 _ (by rw [hspec.2]; omega)]
    have hmodlt : (firstPass w cols w).2 % cols.length < cols.length :=
      Nat.mod_lt _ hlpos
    have hdm := Nat.div_add_mod (firstPass w cols w).2 cols.length
    rw [hspec.2]
    have hmin1 : min ((firstPass w cols w).2 % cols.length) (0 + cols.length)
        = (firstPass w cols w).2 % cols.length := by omega
    have hmin2 : min ((firstPass w cols w).2 % cols.length) 0 = 0 := by omega
    rw [hmin1, hmin2]
    calc (firstPass w cols w).1.sum
          + (firstPass w cols w).2 / cols.length * cols.length
          + ((firstPass w cols w).2 % cols.length - 0)
        = (firstPass w cols w).1.sum
          + (cols.length * ((firstPass w cols w).2 / cols.length)
            + (firstPass w cols w).2 % cols.length) := by ring_nf; omega
      _ = (firstPass w cols w).1.sum + (firstPass w cols w).2 := by rw [hdm]
      _ = w := hspec.1
  · rw [redistribute_length, hspec.2]

/-- Witness for claim C2 at a concrete input. -/
theorem c2_width_sum_invariant_witness :
    ∃ ws, update_column_widths [⟨2, .Fill⟩, ⟨0, .Length 4⟩] 10 = some ws ∧
      ws.sum = 10 ∧ ws.length = 2 :=
  c2_width_sum_invariant [⟨2, .Fill⟩, ⟨0, .Length 4⟩] 10 (by decide) (by decide)

/-- Counterexample for claim C2 as stated: with 65536 columns the source
casts the usize column count to u16, obtaining 0, and the redistribution
division `width_remaining / (column_widths.len() as u16)` divides by
zero, a Rust panic; no width list is produced at all, refuting the claim
for this non-empty column list. -/
theorem c2_counterexample_div_by_zero :
    update_column_widths (List.replicate 65536 ⟨0, .Length 0⟩) 5 = none := by
  apply update_column_widths_none
  · apply List.length_pos.mp
    rw [List.length_replicate]
    exact Nat.succ_pos 65535
  · rw [List.length_replicate]

/-- Claim C7, corrected: for a non-empty table of fewer than 65536 columns
the redistribution behaves exactly as claimed: writing `pass` and `rem`
for the outcome of the left-to-right pass, every column width is its pass
width plus `rem / column_count`, with one extra unit for exactly the
first `rem % column_count` columns in declared order; with zero columns
the allocator returns the empty list without dividing. The column-count
bound is forced by the counterexample below. -/
theorem c7_redistribution_formula (w : Nat) :
    update_column_widths [] w = some [] ∧
    ∀ (cols : List TextColumn), cols ≠ [] → cols.length < 65536 →
      ∃ ws, update_column_widths cols w = some ws ∧
        ws.length = cols.length ∧
        ∀ i, ws.get? i = ((firstPass w cols w).1.get? i).map
          (fun wi => wi + (firstPass w cols w).2 / cols.length
            + if i < (firstPass w cols w).2 % cols.length then 1 else 0) := by
  constructor
  · rfl
  · intro cols hne hlen
    have hspec := firstPass_spec w cols w
    refine ⟨_, update_column_widths_eq cols w hne hlen, ?_, ?_⟩
    · rw [redistribute_length, hspec.2]
    · intro i
      rw [redistribute_get]
      rcases Nat.lt_or_ge i (firstPass w cols w).1.length with hi | hi
      · have hi2 : i < 65536 := by omega
        rw [Nat.zero_add, Nat.mod_eq_of_lt hi2]
      · rw [List.get?_eq_none.mpr hi]
        simp

/-- Witness for claim C7 at a concrete input. -/
theorem c7_redistribution_formula_witness :
    ∃ ws, update_column_widths [⟨2, .Fill⟩, ⟨0, .Length 4⟩] 10 = some ws ∧
      ws.length = 2 ∧
      ∀ i, ws.get? i
        = ((firstPass 10 [⟨2, .Fill⟩, ⟨0, .Length 4⟩] 10).1.get? i).map
          (fun wi => wi + (firstPass 10 [⟨2, .Fill⟩, ⟨0, .Length 4⟩] 10).2 / 2
            + if i < (firstPass 10 [⟨2, .Fill⟩, ⟨0, .Length 4⟩] 10).2 % 2
              then 1 else 0) :=
  (c7_redistribution_formula 10).2 [⟨2, .Fill⟩, ⟨0, .Length 4⟩]
    (by decide) (by decide)

theorem update_column_widths_closed (cols : List TextColumn) (w : Nat)
    (ws : List Nat) (rem : Nat) (hfp : firstPass w cols w = (ws, rem))
    (hne : ws ≠ []) (hmod : ws.length % 65536 ≠ 0) :
    update_column_widths cols w
      = some (redistribute (rem / (ws.length % 65536))
              (rem % (ws.length % 65536)) 0 ws) := by
  have hempty : ws.isEmpty = false := by
    cases ws with
    | nil => exact absurd rfl hne
    | cons a l => rfl
  unfold update_column_widths
  rw [hfp]
  simp only [hempty, Bool.false_eq_true, if_false, if_neg hmod]

/-- Counterexample for claim C7 as stated: with 65537 columns the u16 cast
turns the divisor into 1, so every column gains the whole remaining width
of 5 instead of the claimed `floor(5 / 65537) = 0` with one extra unit for
the first five columns only; the second conjunct records that the actual
uniform gain of 5 differs from the claimed gain for a column beyond the
first five, whose pass width is 0. -/
theorem c7_counterexample_cast_divisor :
    update_column_widths (List.replicate 65537 ⟨0, .Length 0⟩) 5
      = some (List.replicate 65537 5) ∧ (0 + 5 / 65537 : Nat) ≠ 5 := by
  constructor
  · have hl : (List.replicate 65537 (0 : Nat)).length % 65536 = 1 := by
      rw [List.length_replicate]
    have hne : (List.replicate 65537 (0 : Nat)) ≠ [] := by
      apply List.length_pos.mp
      rw [List.length_replicate]
      exact Nat.succ_pos 65536
    have h := update_column_widths_closed (List.replicate 65537 ⟨0, .Length 0⟩) 5
      (List.replicate 65537 0) 5 (firstPass_replicate_len0 5 65537 5) hne
      (by rw [hl]; exact Nat.one_ne_zero)
    rw [h, hl, Nat.div_one, Nat.mod_one, redistribute_replicate_extra0,
      Nat.zero_add]
  · decide

/-- Counterexample for claim C8 as stated: ten Fill columns at available
width 100 do not always receive width 10 each; a header of 20 grapheme
clusters takes its desired width of 21 in the first pass and the even
redistribution then yields 28 for it, not 10. -/
theorem c8_counterexample_long_header :
    update_column_widths (⟨20, .Fill⟩ :: List.replicate 9 ⟨0, .Fill⟩) 100
      ≠ some (List.replicate 10 10) := by
  decide

/-- Claim C8, corrected: ten Fill columns with equal header widths of at
most 9 grapheme clusters (desired width at most 10) at available width
100 each receive exactly width 10. The bound is forced by the
counterexample above. -/
theorem c8_fill_even_split (g : Nat) (hg : g ≤ 9) :
    update_column_widths (List.replicate 10 ⟨g, .Fill⟩) 100
      = some (List.replicate 10 10) := by
  interval_cases g <;> decide

/-- Witness for claim C8 at a concrete input. -/
theorem c8_fill_even_split_witness :
    update_column_widths (List.replicate 10 ⟨3, .Fill⟩) 100
      = some (List.replicate 10 10) :=
  c8_fill_even_split 3 (by decide)

/-- Claim C10, confirmed: under the NonZeroU16 invariant `w ≠ 0` the
zero-width branch is dead for entry rows, so `to_cell` returns Some text
for every entry row and either column, with the CPU label truncated to the
bare index below width 5; the All row yields Some All on the CPU column
and None on the Use column regardless of the width. -/
theorem c10_to_cell_nonzero_width (w : Nat) (hw : w ≠ 0) :
    (∀ dt v col, (to_cell (.Entry dt v) col w).isSome = true) ∧
    to_cell .All .CPU w = some "All" ∧
    to_cell .All .Use w = none ∧
    (∀ i v, to_cell (.Entry (.Cpu i) v) .CPU w
        = some (if w < 5 then toString i else "CPU" ++ toString i)) := by
  refine ⟨?_, rfl, rfl, ?_⟩
  · intro dt v col
    cases col <;> cases dt <;> simp [to_cell, hw]
  · intro i v
    simp [to_cell, hw]

/-- Witness for claim C10 at a concrete input. -/
theorem c10_to_cell_nonzero_width_witness :
    to_cell .All .CPU 3 = some "All" ∧
    to_cell (.Entry (.Cpu 2) 7) .CPU 3 = some (if 3 < 5 then toString 2
      else "CPU" ++ toString 2) :=
  ⟨(c10_to_cell_nonzero_width 3 (by decide)).2.1,
    (c10_to_cell_nonzero_width 3 (by decide)).2.2.2 2 7⟩

/-- Claim C3 (code bug evidence): the click scenario of the claim. The
table shows a gap (table_gap 1), so the header and gap occupy viewport
rows 0 and 1, start_offset is 2 and there are 10 rows. A left click at
mouse row 3 is translated by the source to
`visual_index = y - table_gap = 3 - 1 = 2` and resolves to absolute row
`start_offset + 2 = 4`, not row 3 as the claim states: the source
subtracts only the gap height, not the header row plus the gap. -/
theorem c3_click_selects_row_below :
    (on_event ⟨⟨2, none, 10⟩, 1, false⟩ ⟨0, 0, 20, 20⟩
        (.Mouse ⟨.DownLeft, 3, 5⟩)).2 = .Captured ∧
    (on_event ⟨⟨2, none, 10⟩, 1, false⟩ ⟨0, 0, 20, 20⟩
        (.Mouse ⟨.DownLeft, 3, 5⟩)).1.state.selected_index = some 4 ∧
    (on_event ⟨⟨2, none, 10⟩, 1, false⟩ ⟨0, 0, 20, 20⟩
        (.Mouse ⟨.DownLeft, 3, 5⟩)).1.state.selected_index ≠ some 3 := by
  decide

/-- Claim C9, confirmed: whenever the cached sort index denotes a column,
`update_table` stores exactly the converted incoming rows sorted by that
column with the descending flag of the cached order. -/
theorem c9_update_table_reapplies_sort (t : CpuTable)
    (data : List CpuWidgetData) (column : CpuWidgetColumn)
    (h : cpuColumns.get? t.sort_index = some column) :
    (update_table t data).data
      = sort_data column (data.map from_cpu_widget_data)
          (decide (t.order = SortOrder.Descending)) := by
  unfold update_table
  rw [h]
  rfl

/-- Witness for claim C9 at a concrete input. -/
theorem c9_update_table_reapplies_sort_witness :
    (update_table ⟨0, .Ascending, []⟩
        [.Entry (.Cpu 0) [] 10, .All]).data
      = sort_data .CPU
          (List.map from_cpu_widget_data [.Entry (.Cpu 0) [] 10, .All])
          (decide (SortOrder.Ascending = SortOrder.Descending)) :=
  c9_update_table_reapplies_sort ⟨0, .Ascending, []⟩
    [.Entry (.Cpu 0) [] 10, .All] .CPU rfl

/-! ## Claim C4: panic-freedom -/

/-- Percentage products of a column stay within u16 for the given total
width, the condition under which the percentage multiplication of
`update_column_widths` cannot overflow. -/
def percentOk (c : TextColumn) (total : Nat) : Bool :=
  match c.width_constraint with
  | .Percentage p => total * p < 65536
  | .MaxPercentage p => total * p < 65536
  | _ => true

theorem colWidthChecked_eq (total : Nat) (c : TextColumn) (rem : Nat)
    (h : percentOk c total = true) :
    colWidthChecked total c rem = some (colWidth total c rem) := by
  cases hc : c.width_constraint <;>
    simp only [colWidthChecked, colWidth, percentOk, hc, decide_eq_true_eq] at h ⊢
  · rw [if_neg (by omega), Nat.mod_eq_of_lt h]
  · rw [if_neg (by omega), Nat.mod_eq_of_lt h]

theorem firstPassChecked_eq (total : Nat) :
    ∀ (cols : List TextColumn) (rem : Nat),
      (∀ c ∈ cols, percentOk c total = true) →
      firstPassChecked total cols rem = some (firstPass total cols rem)
  | [], rem, _ => rfl
  | c :: cs, rem, h => by
    have hc : percentOk c total = true := h c (List.mem_cons_self c cs)
    have ih := firstPassChecked_eq total cs (rem - colWidth total c rem)
      (fun x hx => h x (List.mem_cons_of_mem c hx))
    simp only [firstPassChecked, firstPass, colWidthChecked_eq total c rem hc,
      Option.bind_eq_bind, Option.some_bind, ih]
    rfl

/-- Counterexample for claim C4 as stated: `style_row` on a core entry row
with an empty cpu colour style list computes `index % 0`, a modulo by
zero, which panics in Rust; the guarded fallback of
`CpuWidgetStyling::from_colours` is not applied on this path. -/
theorem c4_counterexample_mod_by_zero :
    style_row (0 : Nat) 0 [] (.Entry (.Cpu 0) 5) = none := by
  decide

/-- Claim C4, corrected: the modelled operations cannot panic provided the
cpu colour style list is non-empty (row styling), the column count is
below 65536 (no zero divisor from the u16 cast) and every percentage
product stays below 65536 (no u16 overflow, which the debug build turns
into a panic); the counterexample above shows the provisos are needed. -/
theorem c4_no_panic_under_provisos :
    (∀ (σ : Type) (allS avgS : σ) (styles : List σ) (d : CpuWidgetTableData),
        styles ≠ [] → (style_row allS avgS styles d).isSome = true) ∧
    (∀ (cols : List TextColumn) (w : Nat), cols.length < 65536 →
        (∀ c ∈ cols, percentOk c w = true) →
        (update_column_widths_checked cols w).isSome = true) := by
  constructor
  · intro σ allS avgS styles d hne
    cases d with
    | All => rfl
    | Entry dt v =>
      cases dt with
      | Avg => rfl
      | Cpu i =>
        have hl : styles.length ≠ 0 := fun h => hne (List.length_eq_zero.mp h)
        simp only [style_row, if_neg hl]
        rw [List.get?_eq_get (Nat.mod_lt i (Nat.pos_of_ne_zero hl))]
        rfl
  · intro cols w hlen hperc
    unfold update_column_widths_checked
    rw [firstPassChecked_eq w cols w hperc]
    simp only [Option.bind_eq_bind, Option.some_bind]
    have hlenp : (firstPass w cols w).1.length = cols.length :=
      (firstPass_spec w cols w).2
    cases hc : (firstPass w cols w).1 with
    | nil => rfl
    | cons a l =>
      have hpos : 0 < (firstPass w cols w).1.length := by rw [hc]; simp
      have hmod : (firstPass w cols w).1.length % 65536
          = (firstPass w cols w).1.length := Nat.mod_eq_of_lt (by omega)
      rw [← hc]
      have hempty : (firstPass w cols w).1.isEmpty = false := by
        rw [hc]; rfl
      simp only [hempty, Bool.false_eq_true, if_false, hmod,
        if_neg (by omega : ¬ (firstPass w cols w).1.length = 0)]
      rfl

/-- Witness for claim C4 at concrete inputs. -/
theorem c4_no_panic_under_provisos_witness :
    (style_row (0 : Nat) 1 [7] (.Entry (.Cpu 3) 2)).isSome = true ∧
    (update_column_widths_checked [⟨2, .Percentage 40⟩] 100).isSome = true :=
  ⟨c4_no_panic_under_provisos.1 Nat 0 1 [7] (.Entry (.Cpu 3) 2) (by decide),
    c4_no_panic_under_provisos.2 [⟨2, .Percentage 40⟩] 100 (by decide)
      (by decide)⟩


/-! ## Claim C5: the selection stays inside the visible window -/

theorem move_up_total (s : ScrollState) (n : Nat) :
    (s.move_up n).total_items = s.total_items := by
  unfold ScrollState.move_up
  split
  · rfl
  · split <;> rfl

theorem move_down_total (s : ScrollState) (n : Nat) :
    (s.move_down n).total_items = s.total_items := by
  unfold ScrollState.move_down
  split
  · rfl
  · split <;> rfl

theorem set_visual_index_total (s : ScrollState) (v : Nat) :
    (s.set_visual_index v).total_items = s.total_items := by
  unfold ScrollState.set_visual_index
  split <;> rfl

theorem move_up_selected_lt (s : ScrollState) (n : Nat)
    (hinv : ∀ i, s.selected_index = some i → i < s.total_items) :
    ∀ i, (s.move_up n).selected_index = some i → i < s.total_items := by
  intro i hi
  unfold ScrollState.move_up at hi
  split at hi
  · exact hinv i hi
  · rename_i h0
    split at hi
    · simp only [Option.some.injEq] at hi
      omega
    · rename_i j hj
      simp only [Option.some.injEq] at hi
      have := hinv j hj
      omega

theorem move_down_selected_lt (s : ScrollState) (n : Nat)
    (hinv : ∀ i, s.selected_index = some i → i < s.total_items) :
    ∀ i, (s.move_down n).selected_index = some i → i < s.total_items := by
  intro i hi
  unfold ScrollState.move_down at hi
  split at hi
  · exact hinv i hi
  · rename_i h0
    split at hi
    · simp only [Option.some.injEq] at hi
      omega
    · simp only [Option.some.injEq] at hi
      omega

theorem set_visual_index_selected_lt (s : ScrollState) (v : Nat)
    (hinv : ∀ i, s.selected_index = some i → i < s.total_items) :
    ∀ i, (s.set_visual_index v).selected_index = some i → i < s.total_items := by
  intro i hi
  unfold ScrollState.set_visual_index at hi
  split at hi
  · rename_i hlt
    simp only [Option.some.injEq] at hi
    omega
  · exact hinv i hi

theorem applyOp_total (s : ScrollState) (op : ScrollOp) :
    (applyOp s op).total_items = s.total_items := by
  cases op with
  | up n => exact move_up_total s n
  | down n => exact move_down_total s n
  | setVisual v => exact set_visual_index_total s v

theorem applyOp_selected_lt (s : ScrollState) (op : ScrollOp)
    (hinv : ∀ i, s.selected_index = some i → i < s.total_items) :
    ∀ i, (applyOp s op).selected_index = some i
      → i < (applyOp s op).total_items := by
  rw [applyOp_total]
  cases op with
  | up n => exact move_up_selected_lt s n hinv
  | down n => exact move_down_selected_lt s n hinv
  | setVisual v => exact set_visual_index_selected_lt s v hinv

theorem applyOps_total (ops : List ScrollOp) :
    ∀ (s : ScrollState), (applyOps s ops).total_items = s.total_items := by
  induction ops with
  | nil => intro s; rfl
  | cons op ops ih =>
    intro s
    rw [applyOps, ih, applyOp_total]

theorem applyOps_selected_lt (ops : List ScrollOp) :
    ∀ (s : ScrollState),
      (∀ i, s.selected_index = some i → i < s.total_items) →
      ∀ i, (applyOps s ops).selected_index = some i
        → i < (applyOps s ops).total_items := by
  induction ops with
  | nil => intro s hinv; exact hinv
  | cons op ops ih =>
    intro s hinv
    have h2 := applyOp_selected_lt s op hinv
    rw [applyOp_total] at h2
    exact ih (applyOp s op) (fun i hi =>
      (applyOp_total s op) ▸ applyOp_selected_lt s op hinv i hi)

/-- Claim C5, corrected: for every positive viewport height h, every item
count n and every operation sequence applied to a fresh scroll state, a
selected index lies inside the half-open window returned by
`visible_window h`, and the window end never exceeds n. Positivity of h
is forced by the counterexample below. -/
theorem c5_selection_within_window (n h : Nat) (ops : List ScrollOp)
    (hh : 1 ≤ h) (st en : Nat)
    (hw : ((applyOps (ScrollState.init n) ops).visible_window h).2 = (st, en)) :
    (∀ i, (applyOps (ScrollState.init n) ops).selected_index = some i →
      st ≤ i ∧ i < st + h) ∧ en ≤ n := by
  have htot : (applyOps (ScrollState.init n) ops).total_items = n :=
    applyOps_total ops (ScrollState.init n)
  have hsel : ∀ i, (applyOps (ScrollState.init n) ops).selected_index = some i
      → i < n := by
    intro i hi
    have hbase : ∀ i, (ScrollState.init n).selected_index = some i
        → i < (ScrollState.init n).total_items := by
      intro i hi
      simp only [ScrollState.init] at hi
      cases hi
    have := applyOps_selected_lt ops (ScrollState.init n) hbase i hi
    rwa [htot] at this
  simp only [ScrollState.visible_window, Prod.mk.injEq] at hw
  obtain ⟨hst, hen⟩ := hw
  cases hse : (applyOps (ScrollState.init n) ops).selected_index with
  | none =>
    refine ⟨?_, ?_⟩
    · intro i hi
      simp at hi
    · rw [htot] at hen
      omega
  | some j =>
    have hj : j < n := hsel j hse
    refine ⟨?_, ?_⟩
    · intro i hi
      rw [Option.some.injEq] at hi
      subst hi
      rw [hse] at hst
      simp only at hst
      rw [htot] at hst
      split at hst
      · omega
      · split at hst
        · omega
        · split at hst <;> omega
    · rw [htot] at hen
      omega

/-- Witness for claim C5 at a concrete input. -/
theorem c5_selection_within_window_witness :
    1 ≤ 2 ∧ (2 : Nat) < 1 + 2 :=
  ⟨by decide,
    ((c5_selection_within_window 3 2 [.down 0, .down 5] (by decide) 1 3
      (by decide)).1 2 (by decide)).2⟩

/-- Counterexample for claim C5 as stated: with viewport height 0 the
window is empty, so a selected row cannot lie inside it; after a single
move_down on one item the selection is index 0 while the window start
returned by `visible_window 0` is 1, and membership
`1 ≤ 0 ∧ 0 < 1 + 0` fails. -/
theorem c5_counterexample_zero_height :
    (applyOps (ScrollState.init 1) [.down 0]).selected_index = some 0 ∧
    ((applyOps (ScrollState.init 1) [.down 0]).visible_window 0).2.1 = 1 ∧
    ¬ (1 ≤ 0 ∧ 0 < 1 + 0) := by
  decide

/-! ## Claim C6: order toggling on normal rows -/

/-- Three-way comparison by value, the shape shared by `natCmp` and
`intCmp`. -/
def cmpOf {β : Type} [LinearOrder β] (x y : β) : Ordering :=
  if x < y then .lt else if x = y then .eq else .gt

theorem cmpOf_lt {β : Type} [LinearOrder β] {x y : β} (h : x < y) :
    cmpOf x y = .lt := if_pos h

theorem cmpOf_eq {β : Type} [LinearOrder β] {x y : β} (h : x = y) :
    cmpOf x y = .eq := by
  unfold cmpOf
  rw [if_neg (by rw [h]; exact lt_irrefl y), if_pos h]

theorem cmpOf_gt {β : Type} [LinearOrder β] {x y : β} (h : y < x) :
    cmpOf x y = .gt := by
  unfold cmpOf
  rw [if_neg (lt_asymm h), if_neg (ne_of_gt h)]

theorem natCmp_eq_cmpOf (a b : Nat) : natCmp a b = cmpOf a b := rfl

theorem intCmp_eq_cmpOf (a b : Int) : intCmp a b = cmpOf a b := rfl

theorem mem_orderedInsertBy (le : CpuWidgetTableData → CpuWidgetTableData → Bool)
    (a x : CpuWidgetTableData) :
    ∀ (l : List CpuWidgetTableData),
      x ∈ orderedInsertBy le a l ↔ x = a ∨ x ∈ l
  | [] => by simp [orderedInsertBy]
  | b :: l => by
    unfold orderedInsertBy
    split
    · simp only [List.mem_cons]
    · rw [List.mem_cons, mem_orderedInsertBy le a x l, List.mem_cons]
      tauto

theorem orderedInsertBy_perm (le : CpuWidgetTableData → CpuWidgetTableData → Bool)
    (a : CpuWidgetTableData) :
    ∀ (l : List CpuWidgetTableData), (orderedInsertBy le a l).Perm (a :: l)
  | [] => List.Perm.refl _
  | b :: l => by
    unfold orderedInsertBy
    split
    · exact List.Perm.refl _
    · exact ((orderedInsertBy_perm le a l).cons b).trans (List.Perm.swap a b l)

theorem sortByStable_perm (le : CpuWidgetTableData → CpuWidgetTableData → Bool) :
    ∀ (l : List CpuWidgetTableData), (sortByStable le l).Perm l
  | [] => List.Perm.refl _
  | a :: l =>
    (orderedInsertBy_perm le a (sortByStable le l)).trans
      ((sortByStable_perm le l).cons a)

theorem orderedInsertBy_pairwise
    (le : CpuWidgetTableData → CpuWidgetTableData → Bool)
    (a : CpuWidgetTableData) :
    ∀ (l : List CpuWidgetTableData),
      (∀ b ∈ l, le a b = true ∨ le b a = true) →
      (∀ x y z, (x = a ∨ x ∈ l) → (y = a ∨ y ∈ l) → (z = a ∨ z ∈ l) →
        le x y = true → le y z = true → le x z = true) →
      l.Pairwise (fun x y => le x y = true) →
      (orderedInsertBy le a l).Pairwise (fun x y => le x y = true)
  | [], _, _, _ => by simp [orderedInsertBy]
  | b :: l, htot, htr, hp => by
    rcases List.pairwise_cons.mp hp with ⟨hb, hpl⟩
    unfold orderedInsertBy
    split
    · rename_i hab
      refine List.pairwise_cons.mpr ⟨?_, hp⟩
      intro y hy
      rcases List.mem_cons.mp hy with rfl | hyl
      · exact hab
      · exact htr a b y (Or.inl rfl) (Or.inr (List.mem_cons_self b l))
          (Or.inr (List.mem_cons_of_mem b hyl)) hab (hb y hyl)
    · rename_i hab
      have hba : le b a = true := by
        rcases htot b (List.mem_cons_self b l) with h | h
        · exact absurd h hab
        · exact h
      refine List.pairwise_cons.mpr ⟨?_, ?_⟩
      · intro y hy
        rcases (mem_orderedInsertBy le a y l).mp hy with rfl | hyl
        · exact hba
        · exact hb y hyl
      · exact orderedInsertBy_pairwise le a l
          (fun c hc => htot c (List.mem_cons_of_mem b hc))
          (fun x y z hx hy hz => htr x y z
            (hx.imp id (List.mem_cons_of_mem b))
            (hy.imp id (List.mem_cons_of_mem b))
            (hz.imp id (List.mem_cons_of_mem b)))
          hpl

theorem sortByStable_pairwise
    (le : CpuWidgetTableData → CpuWidgetTableData → Bool) :
    ∀ (l : List CpuWidgetTableData),
      (∀ x ∈ l, ∀ y ∈ l, le x y = true ∨ le y x = true) →
      (∀ x ∈ l, ∀ y ∈ l, ∀ z ∈ l, le x y = true → le y z = true
        → le x z = true) →
      (sortByStable le l).Pairwise (fun x y => le x y = true)
  | [], _, _ => List.Pairwise.nil
  | a :: l, htot, htr => by
    have hmem : ∀ x, x ∈ sortByStable le l → x ∈ l :=
      fun x hx => (sortByStable_perm le l).mem_iff.mp hx
    have hup : ∀ x, (x = a ∨ x ∈ sortByStable le l) → x ∈ a :: l := by
      intro x hx
      rcases hx with h | hx
      · rw [h]
        exact List.mem_cons_self a l
      · exact List.mem_cons_of_mem a (hmem x hx)
    unfold sortByStable
    apply orderedInsertBy_pairwise
    · intro b hb
      exact htot a (List.mem_cons_self a l) b (hup b (Or.inr hb))
    · intro x y z hx hy hz
      exact htr x (hup x hx) y (hup y hy) z (hup z hz)
    · exact sortByStable_pairwise le l
        (fun x hx y hy =>
          htot x (List.mem_cons_of_mem a hx) y (List.mem_cons_of_mem a hy))
        (fun x hx y hy z hz =>
          htr x (List.mem_cons_of_mem a hx) y (List.mem_cons_of_mem a hy)
            z (List.mem_cons_of_mem a hz))

theorem perm_pairwise_antisymm_eq {α : Type} {R : α → α → Prop} :
    ∀ (l₁ l₂ : List α), l₁.Perm l₂ → l₁.Pairwise R → l₂.Pairwise R →
      (∀ a ∈ l₁, ∀ b ∈ l₁, R a b → R b a → a = b) → l₁ = l₂
  | [], _, p, _, _, _ => p.nil_eq
  | a :: t, l₂, p, hp1, hp2, hanti => by
    have ha2 : a ∈ l₂ := p.mem_iff.mp (List.mem_cons_self a t)
    cases hl2 : l₂ with
    | nil =>
      rw [hl2] at ha2
      cases ha2
    | cons b s =>
      subst hl2
      have hab : a = b := by
        rcases List.mem_cons.mp ha2 with h | has
        · exact h
        · have hb1 : b ∈ a :: t := p.mem_iff.mpr (List.mem_cons_self b s)
          rcases List.mem_cons.mp hb1 with h | hbt
          · exact h.symm
          · have hRab : R a b := List.rel_of_pairwise_cons hp1 hbt
            have hRba : R b a := List.rel_of_pairwise_cons hp2 has
            exact hanti a (List.mem_cons_self a t)
              b (List.mem_cons_of_mem a hbt) hRab hRba
      subst hab
      have p2 : t.Perm s := p.cons_inv
      have ht := perm_pairwise_antisymm_eq t s p2 hp1.of_cons hp2.of_cons
        (fun x hx y hy => hanti x (List.mem_cons_of_mem a hx)
          y (List.mem_cons_of_mem a hy))
      rw [ht]

theorem sortByStable_flip_reverse {β : Type} [LinearOrder β]
    (k : CpuWidgetTableData → β)
    (cmp : CpuWidgetTableData → CpuWidgetTableData → Ordering)
    (l : List CpuWidgetTableData)
    (hc : ∀ a ∈ l, ∀ b ∈ l, cmp a b = cmpOf (k a) (k b))
    (hnd : (l.map k).Nodup) :
    sortByStable (fun a b => flipOrder (cmp a b) != Ordering.gt) l
      = (sortByStable (fun a b => cmp a b != Ordering.gt) l).reverse := by
  have hAiff : ∀ a ∈ l, ∀ b ∈ l,
      ((flipOrder (cmp a b) != Ordering.gt) = true ↔ k b ≤ k a) := by
    intro a ha b hb
    rw [hc a ha b hb]
    rcases lt_trichotomy (k a) (k b) with h | h | h
    · rw [cmpOf_lt h]
      exact iff_of_false (by decide) (not_le.mpr h)
    · rw [cmpOf_eq h]
      exact iff_of_true (by decide) (le_of_eq h.symm)
    · rw [cmpOf_gt h]
      exact iff_of_true (by decide) (le_of_lt h)
  have hDiff : ∀ a ∈ l, ∀ b ∈ l,
      ((cmp a b != Ordering.gt) = true ↔ k a ≤ k b) := by
    intro a ha b hb
    rw [hc a ha b hb]
    rcases lt_trichotomy (k a) (k b) with h | h | h
    · rw [cmpOf_lt h]
      exact iff_of_true (by decide) (le_of_lt h)
    · rw [cmpOf_eq h]
      exact iff_of_true (by decide) (le_of_eq h)
    · rw [cmpOf_gt h]
      exact iff_of_false (by decide) (not_le.mpr h)
  have pA := sortByStable_perm (fun a b => flipOrder (cmp a b) != Ordering.gt) l
  have pD := sortByStable_perm (fun a b => cmp a b != Ordering.gt) l
  have hperm : (sortByStable (fun a b => flipOrder (cmp a b) != Ordering.gt) l).Perm
      (sortByStable (fun a b => cmp a b != Ordering.gt) l).reverse :=
    pA.trans (pD.symm.trans (List.reverse_perm _).symm)
  have sA : (sortByStable (fun a b => flipOrder (cmp a b) != Ordering.gt) l).Pairwise
      (fun x y => (flipOrder (cmp x y) != Ordering.gt) = true) := by
    apply sortByStable_pairwise
    · intro x hx y hy
      rcases le_total (k y) (k x) with h | h
      · exact Or.inl ((hAiff x hx y hy).mpr h)
      · exact Or.inr ((hAiff y hy x hx).mpr h)
    · intro x hx y hy z hz hxy hyz
      exact (hAiff x hx z hz).mpr
        (le_trans ((hAiff y hy z hz).mp hyz) ((hAiff x hx y hy).mp hxy))
  have sD : (sortByStable (fun a b => cmp a b != Ordering.gt) l).Pairwise
      (fun x y => (cmp x y != Ordering.gt) = true) := by
    apply sortByStable_pairwise
    · intro x hx y hy
      rcases le_total (k x) (k y) with h | h
      · exact Or.inl ((hDiff x hx y hy).mpr h)
      · exact Or.inr ((hDiff y hy x hx).mpr h)
    · intro x hx y hy z hz hxy hyz
      exact (hDiff x hx z hz).mpr
        (le_trans ((hDiff x hx y hy).mp hxy) ((hDiff y hy z hz).mp hyz))
  have hmemD : ∀ x, x ∈ sortByStable (fun a b => cmp a b != Ordering.gt) l
      → x ∈ l := fun x hx => pD.mem_iff.mp hx
  have sRev : (sortByStable (fun a b => cmp a b != Ordering.gt) l).reverse.Pairwise
      (fun x y => (flipOrder (cmp x y) != Ordering.gt) = true) := by
    rw [List.pairwise_reverse]
    apply sD.imp_of_mem
    intro x y hx hy hxy
    exact (hAiff y (hmemD y hy) x (hmemD x hx)).mpr
      ((hDiff x (hmemD x hx) y (hmemD y hy)).mp hxy)
  have hanti : ∀ x ∈ sortByStable (fun a b => flipOrder (cmp a b) != Ordering.gt) l,
      ∀ y ∈ sortByStable (fun a b => flipOrder (cmp a b) != Ordering.gt) l,
      (flipOrder (cmp x y) != Ordering.gt) = true
      → (flipOrder (cmp y x) != Ordering.gt) = true → x = y := by
    intro x hx y hy hxy hyx
    have hx2 : x ∈ l := pA.mem_iff.mp hx
    have hy2 : y ∈ l := pA.mem_iff.mp hy
    have h1 : k y ≤ k x := (hAiff x hx2 y hy2).mp hxy
    have h2 : k x ≤ k y := (hAiff y hy2 x hx2).mp hyx
    exact List.inj_on_of_nodup_map hnd hx2 hy2 (le_antisymm h2 h1)
  exact perm_pairwise_antisymm_eq _ _ hperm sA sRev hanti

/-- Normal row predicate of the claims: a core entry row, neither the
pinned All row nor an AVG aggregate entry. -/
def isNormalRow (d : CpuWidgetTableData) : Bool :=
  match d with
  | .Entry (.Cpu _) _ => true
  | _ => false

/-- Sort key of the CPU column on normal rows: the core index. -/
def cpuKey (d : CpuWidgetTableData) : Nat :=
  match d with
  | .Entry (.Cpu i) _ => i
  | _ => 0

/-- Sort key of the Use column on normal rows: the latest usage value. -/
def useKey (d : CpuWidgetTableData) : Int :=
  match d with
  | .Entry _ v => v
  | .All => 0

/-- Claim C6, corrected: on a row set of normal rows whose sort keys are
pairwise distinct, toggling the descending flag yields exactly the
reversed sequence for either column, and the toggle is a pure sign flip
of the comparator output; with tied keys the stable sort keeps the input
order under both flag settings, so the distinctness proviso is forced by
the counterexample below. -/
theorem c6_order_toggle_reverses (l : List CpuWidgetTableData)
    (hnorm : ∀ x ∈ l, isNormalRow x = true)
    (hndCPU : (l.map cpuKey).Nodup) (hndUse : (l.map useKey).Nodup) :
    (∀ c, sort_data c l false = (sort_data c l true).reverse) ∧
    (∀ c a b, sortCmp c false a b = flipOrder (sortCmp c true a b)) := by
  have hshape : ∀ x ∈ l, ∃ i v, x = CpuWidgetTableData.Entry (.Cpu i) v := by
    intro x hx
    have := hnorm x hx
    cases x with
    | All => cases this
    | Entry dt v =>
      cases dt with
      | Avg => cases this
      | Cpu i => exact ⟨i, v, rfl⟩
  constructor
  · intro c
    cases c with
    | CPU =>
      have hc : ∀ a ∈ l, ∀ b ∈ l, cmpCPUBase a b = cmpOf (cpuKey a) (cpuKey b) := by
        intro a ha b hb
        obtain ⟨ia, va, rfl⟩ := hshape a ha
        obtain ⟨ib, vb, rfl⟩ := hshape b hb
        exact natCmp_eq_cmpOf ia ib
      exact sortByStable_flip_reverse cpuKey cmpCPUBase l hc hndCPU
    | Use =>
      have hc : ∀ a ∈ l, ∀ b ∈ l, cmpUseBase a b = cmpOf (useKey a) (useKey b) := by
        intro a ha b hb
        obtain ⟨ia, va, rfl⟩ := hshape a ha
        obtain ⟨ib, vb, rfl⟩ := hshape b hb
        exact intCmp_eq_cmpOf va vb
      exact sortByStable_flip_reverse useKey cmpUseBase l hc hndUse
  · intro c a b
    cases c <;> rfl

/-- Witness for claim C6 at a concrete input. -/
theorem c6_order_toggle_reverses_witness :
    sort_data .CPU [.Entry (.Cpu 0) 10, .Entry (.Cpu 1) 30] false
      = (sort_data .CPU [.Entry (.Cpu 0) 10, .Entry (.Cpu 1) 30] true).reverse :=
  (c6_order_toggle_reverses [.Entry (.Cpu 0) 10, .Entry (.Cpu 1) 30]
    (by decide) (by decide) (by decide)).1 .CPU

/-- Counterexample for claim C6 as stated: two normal rows with equal Use
values keep their input order under both flag settings of the stable
sort, so toggling the order does not reverse the sequence. -/
theorem c6_counterexample_tied_rows :
    sort_data .Use [.Entry (.Cpu 0) 5, .Entry (.Cpu 1) 5] false
      ≠ (sort_data .Use [.Entry (.Cpu 0) 5, .Entry (.Cpu 1) 5] true).reverse := by
  decide
